import Mathlib

/-!
Verification development for the loop-tiling and buffer-access analysis core of
the stripe IR (operations `ApplyTile` and `ComputeAccess`) and for the Vulkan
conversion pass helper `createBinaryShader`.

The implementation of the tiling engine and the access analyzer is not part of
the available sources; only their unit test (`tile/codegen/test/test_access.cc`)
is.  The definitions below are therefore modelled from the specification, with
the concrete behaviour pinned by the expectations of that test (which is actual
repository code and hence authoritative wherever it speaks): the tiled 5x5
matrix-multiply kernel must analyze to the exact access patterns listed there.
`createBinaryShader` is embedded directly from
`pmlc/conversion/gpu/vulkan.cc`.
-/

namespace Stripe

/-- Modelled from the spec: direction tag of a refinement (read, write or
read-write); the tag is irrelevant to tiling and access analysis and is carried
through unchanged. -/
inductive Dir where
  | read
  | write
  | readWrite
deriving DecidableEq, Repr

/-- Modelled from the spec: one loop dimension, with its `name`, trip count
`range` and the unit step `baseStride` of the underlying linear index it
advances. -/
structure IndexVariable where
  name : String
  range : Nat
  baseStride : Int
deriving DecidableEq, Repr

/-- Modelled from the spec: one term `coeff * value(var)` of an affine map. -/
structure Term where
  var : String
  coeff : Int
deriving DecidableEq, Repr

/-- Modelled from the spec: an affine map `offset + sum of coeff * value(var)`
over named index variables. -/
structure AffineMap where
  offset : Int
  terms : List Term
deriving DecidableEq, Repr

/-- Modelled from the spec: a named binding from a buffer identifier to an
affine addressing map, valid in the scope of the block that declares it. -/
structure Refinement where
  buffer : String
  dir : Dir
  map : AffineMap
deriving DecidableEq, Repr

/-- Modelled from the spec: tiling lineage recorded by `applyTile` on the inner
block it creates ("tracked by name/lineage, not by re-deriving from scratch"),
one record per tiled dimension: the tile size and the original pre-tiling range
of that dimension.  The access analyzer compares the two to decide exactness
and to emit boundary constraints. -/
structure SplitInfo where
  tile : Nat
  origRange : Nat
deriving DecidableEq, Repr

mutual
/-- Modelled from the spec: a statement is a nested block or an opaque leaf
compute operation. -/
inductive Stmt where
  | leaf : Stmt
  | nested : Block → Stmt
/-- Modelled from the spec: a block is one level of the loop nest, holding its
index variables, its tiling lineage records, its refinements and its ordered
statements. -/
inductive Block where
  | mk : List IndexVariable → List SplitInfo → List Refinement → List Stmt → Block
end

/-- Index variables declared by a block. -/
def Block.idxs : Block → List IndexVariable
  | .mk i _ _ _ => i

/-- Tiling lineage records of a block (empty unless the block is the inner
block of a tiling split). -/
def Block.splits : Block → List SplitInfo
  | .mk _ s _ _ => s

/-- Refinements declared by a block. -/
def Block.refs : Block → List Refinement
  | .mk _ _ r _ => r

/-- Statements of a block. -/
def Block.stmts : Block → List Stmt
  | .mk _ _ _ s => s

mutual
/-- Depth of a block tree: one more than the greatest depth among its nested
statements.  Used as structural fuel for the access analyzer's walk. -/
def Block.depth : Block → Nat
  | .mk _ _ _ ss => stmtsDepth ss + 1
/-- Greatest block depth among a list of statements. -/
def stmtsDepth : List Stmt → Nat
  | [] => 0
  | .leaf :: rest => stmtsDepth rest
  | .nested b :: rest => max (Block.depth b) (stmtsDepth rest)
end

/-- Evaluation of an affine map under an assignment of index-variable names to
integer values: `offset + sum of coeff * env var`. -/
def evalMap (m : AffineMap) (env : String → Int) : Int :=
  m.offset + (m.terms.map fun t => t.coeff * env t.var).sum

/-- Coefficient of a named index variable in an affine map (0 when absent). -/
def coeffOf (m : AffineMap) (v : String) : Int :=
  match m.terms.find? fun t => t.var == v with
  | some t => t.coeff
  | none => 0

/-- First refinement for a buffer name in a refinement list. -/
def findRef (refs : List Refinement) (buf : String) : Option Refinement :=
  refs.find? fun r => r.buffer == buf

/-- Tile size associated with an index-variable name, by position in the
block's index list (none when the name is not one of the block's own index
variables, e.g. an ancestor's variable). -/
def findTile : List IndexVariable → List Nat → String → Option Nat
  | iv :: ivs, t :: tss, v => if iv.name = v then some t else findTile ivs tss v
  | _, _, _ => none

/-- Modelled from the spec: the outer half of the rewrite of one affine term
under tiling: a term `coeff * v` on a split variable `v` with tile size `T`
becomes `(coeff * T) * v_outer`; terms on non-split (ancestor) variables have
no outer half. -/
def splitOuterTerm (idxs : List IndexVariable) (ts : List Nat) (tm : Term) : Option Term :=
  (findTile idxs ts tm.var).map fun T => ⟨tm.var, tm.coeff * T⟩

/-- Modelled from the spec: the rewrite of a refinement onto the outer level of
a tiling split: every term `coeff * v` on a split variable contributes
`(coeff * T) * v_outer`; the constant offset stays with the inner level. -/
def outerRefRw (idxs : List IndexVariable) (ts : List Nat) (r : Refinement) : Refinement :=
  ⟨r.buffer, r.dir, ⟨0, r.map.terms.filterMap (splitOuterTerm idxs ts)⟩⟩

/-- Error taxonomy of the tiling engine. -/
inductive TileError where
  | ShapeMismatch
deriving DecidableEq, Repr

/-- Modelled from the spec: `applyTile block tileShape` splits every index
variable `v` (range `R`, baseStride `S`, tile size `T`) into an outer variable
with range `ceil(R / T) = (R + T - 1) / T` and baseStride `S * T`, and an inner
variable with range `T` and baseStride `S`.  A new inner block takes the inner
variables, the original statements, the refinements with their original
coefficients, and one tiling lineage record `(T, R)` per dimension; the block
itself keeps the outer variables, a single nested statement (the inner block),
and the outer halves of the rewritten refinements.  Fails with `ShapeMismatch`
when the tile shape length differs from the number of index variables or some
tile size is below 1. -/
def applyTile (b : Block) (ts : List Nat) : Except TileError Block :=
  if ts.length = b.idxs.length ∧ ∀ t ∈ ts, 1 ≤ t then
    .ok (Block.mk
      (List.zipWith (fun iv t => ⟨iv.name, (iv.range + t - 1) / t, iv.baseStride * t⟩) b.idxs ts)
      b.splits
      (b.refs.map (outerRefRw b.idxs ts))
      [Stmt.nested (Block.mk
        (List.zipWith (fun iv t => ⟨iv.name, t, iv.baseStride⟩) b.idxs ts)
        (List.zipWith (fun iv t => ⟨t, iv.range⟩) b.idxs ts)
        b.refs
        b.stmts)])
  else .error .ShapeMismatch

/-- Inner block created by a tiling application: the single nested statement of
the rewritten block (the block itself when its statements have another shape). -/
def innerOf (b : Block) : Block :=
  match b.stmts with
  | [Stmt.nested c] => c
  | _ => b

/-- One entry of an access pattern: an index-variable name, its effective
stride in the buffer's linear address, and its iteration range. -/
structure AccessIndex where
  name : String
  stride : Int
  range : Nat
deriving DecidableEq, Repr

/-- One boundary constraint of an access pattern: coefficients aligned with the
pattern's index entries, and the bound (the original pre-tiling range). -/
structure Constraint where
  lhs : List Int
  rhs : Int
deriving DecidableEq, Repr

/-- Pending boundary constraint collected during the walk, before the total
number of index entries is known: positions of the outer and inner entry of a
ragged split, the tile size and the original range. -/
structure PendConstraint where
  outerPos : Nat
  innerPos : Nat
  tile : Nat
  bound : Nat
deriving DecidableEq, Repr

/-- Modelled from the spec: the flattened description of how a buffer's address
varies across one chain of enclosing loop levels, plus boundary-safety
metadata. -/
structure AccessPattern where
  isExterior : Bool
  isExact : Bool
  offset : Int
  access : List AccessIndex
  constraints : List Constraint
deriving DecidableEq, Repr

/-- Index entries contributed by one level: one entry per index variable of the
block, in order, with the variable's coefficient in the level's refinement as
its stride. -/
def levelEntries (b : Block) (r : Refinement) : List AccessIndex :=
  b.idxs.map fun iv => ⟨iv.name, coeffOf r.map iv.name, iv.range⟩

/-- Pending boundary constraints for the ragged tiling lineage records of a
level entered during descent: one per record whose tile size does not divide
the original range, pairing the entry of the previous (outer) level at the same
position with this level's entry. -/
def raggedCons (prevStart lvlStart j : Nat) : List SplitInfo → List PendConstraint
  | [] => []
  | s :: rest =>
      (if s.origRange % s.tile == 0 then [] else
        [⟨prevStart + j, lvlStart + j, s.tile, s.origRange⟩]) ++
      raggedCons prevStart lvlStart (j + 1) rest

/-- Materialization of a pending constraint once the total number of index
entries is known: the coefficient row holds the tile size at the outer entry's
position and 1 at the inner entry's position. -/
def materializeRow (len : Nat) (pc : PendConstraint) : Constraint :=
  ⟨(List.range len).map fun i =>
      if i = pc.outerPos then (pc.tile : Int) else if i = pc.innerPos then 1 else 0,
    (pc.bound : Int)⟩

/-- Application of a block-valued collection function to one statement: a leaf
contributes nothing, a nested block contributes its results. -/
def stmtChildren {α : Type} (f : Block → List α) : Stmt → List α
  | .leaf => []
  | .nested c => f c

/-- Application of a block predicate to one statement: false on a leaf. -/
def stmtCheck (f : Block → Bool) : Stmt → Bool
  | .leaf => false
  | .nested c => f c

/-- Modelled from the spec: the descent of the access analyzer.  At each level
holding a refinement for the buffer it accumulates the level's offset and index
entries; on a level entered strictly below the start it collects a pending
boundary constraint for every ragged tiling lineage record; it then recurses
into the nested statements, and emits one access pattern when no deeper level
contributed one.  `isExterior` records whether every local coefficient of the
innermost visited level is zero; `exact` is threaded unchanged from the start
of the walk.  The fuel argument dominates the tree depth and makes the
recursion structural. -/
def walkBlock (buf : String) (fuel : Nat) (b : Block) (off : Int)
    (acc : List AccessIndex) (cons : List PendConstraint) (exact : Bool)
    (prevStart : Nat) (atStart : Bool) : List AccessPattern :=
  match fuel with
  | 0 => []
  | fuel' + 1 =>
    match findRef b.refs buf with
    | none => []
    | some r =>
      let lvl := levelEntries b r
      let newCons := if atStart then [] else raggedCons prevStart acc.length 0 b.splits
      let off' := off + r.map.offset
      let acc' := acc ++ lvl
      let cons' := cons ++ newCons
      let sub := (b.stmts.map (stmtChildren fun c =>
        walkBlock buf fuel' c off' acc' cons' exact acc.length false)).flatten
      if sub.isEmpty then
        [⟨lvl.all fun e => e.stride == 0, exact, off', acc',
          cons'.map (materializeRow acc'.length)⟩]
      else sub

/-- Modelled from the spec: `computeAccess block bufferName` walks the block's
subtree and returns the access patterns of the buffer.  The pattern is exact
when every tiling lineage record of the start block itself is even; ragged
records of deeper levels are emitted as boundary constraints instead.  A buffer
never referenced in the subtree yields the empty sequence; the analyzer is a
total function and has no failure condition. -/
def computeAccess (b : Block) (buf : String) : List AccessPattern :=
  walkBlock buf b.depth b 0 [] []
    (b.splits.all fun s => s.origRange % s.tile == 0) 0 true

/-- Modelled from the spec (pinned by the unit test): the kernel block of the
5x5 matrix-multiply `C[m, n] = +(A[m, k] * B[k, n])` as produced by the
external front-end (`GenerateStripe`), before tiling: index variables `k`, `m`,
`n` of range 5, refinements addressing the row-major 5x5 buffers, and one leaf
compute statement. -/
def matmulKernel : Block :=
  Block.mk
    [⟨"k", 5, 1⟩, ⟨"m", 5, 1⟩, ⟨"n", 5, 1⟩]
    []
    [⟨"A", .read, ⟨0, [⟨"k", 1⟩, ⟨"m", 5⟩, ⟨"n", 0⟩]⟩⟩,
     ⟨"B", .read, ⟨0, [⟨"k", 5⟩, ⟨"m", 0⟩, ⟨"n", 1⟩]⟩⟩,
     ⟨"C", .write, ⟨0, [⟨"k", 0⟩, ⟨"m", 5⟩, ⟨"n", 1⟩]⟩⟩]
    [Stmt.leaf]

/-- The matmul kernel block after `applyTile` with tile shape `(2, 2, 2)`, as
in the unit test. -/
def tiledKernel : Block :=
  match applyTile matmulKernel [2, 2, 2] with
  | .ok b => b
  | .error _ => matmulKernel

/-- Access pattern the unit test expects for buffer `A` when analyzing the
tiled kernel block: not exterior, exact, offset 0, six index entries ordered
outer-then-inner, and three boundary constraint rows bounded by 5. -/
def patternTiledA : AccessPattern :=
  ⟨false, true, 0,
    [⟨"k", 2, 3⟩, ⟨"m", 10, 3⟩, ⟨"n", 0, 3⟩, ⟨"k", 1, 2⟩, ⟨"m", 5, 2⟩, ⟨"n", 0, 2⟩],
    [⟨[2, 0, 0, 1, 0, 0], 5⟩, ⟨[0, 2, 0, 0, 1, 0], 5⟩, ⟨[0, 0, 2, 0, 0, 1], 5⟩]⟩

/-- Access pattern the unit test expects for buffer `A` when analyzing the
inner sub-block alone: not exterior, not exact, offset 0, three index entries
and no constraints. -/
def patternInnerA : AccessPattern :=
  ⟨false, false, 0, [⟨"k", 1, 2⟩, ⟨"m", 5, 2⟩, ⟨"n", 0, 2⟩], []⟩

/-- Whether some tiling lineage record of the block itself is ragged (tile size
not dividing the original range). -/
def hasRaggedSplit (b : Block) : Bool :=
  b.splits.any fun s => !(s.origRange % s.tile == 0)

/-- Whether some block at or strictly below `b` (strictly below when `atStart`
is true, mirroring the walk's start) carries a ragged tiling lineage record,
searched to the given fuel. -/
def subtreeRagged (fuel : Nat) (b : Block) (atStart : Bool) : Bool :=
  match fuel with
  | 0 => false
  | fuel' + 1 =>
    (!atStart && hasRaggedSplit b) ||
      (b.stmts.map (stmtCheck fun c => subtreeRagged fuel' c false)).any id

/-- Whether some block strictly below `b` carries a ragged tiling lineage
record. -/
def raggedBelow (b : Block) : Bool :=
  subtreeRagged b.depth b true

/-- Whether a refinement for the buffer exists anywhere in the block's subtree,
searched to the given fuel. -/
def refInSubtree (buf : String) : Nat → Block → Bool
  | 0, _ => false
  | fuel + 1, b =>
      (findRef b.refs buf).isSome ||
        (b.stmts.map (stmtCheck fun c => refInSubtree buf fuel c)).any id

/-- Whether a refinement for the buffer exists anywhere in the block's
subtree. -/
def hasRefInSubtree (b : Block) (buf : String) : Bool :=
  refInSubtree buf b.depth b

/-- Companion of the walk returning, chain by chain, the innermost level the
access analyzer visits: the recursion mirrors `walkBlock` exactly, and the
block it lists for a chain is the one whose refinement decides the chain's
`isExterior` bit. -/
def innermostWalk (buf : String) (fuel : Nat) (b : Block) : List Block :=
  match fuel with
  | 0 => []
  | fuel' + 1 =>
    match findRef b.refs buf with
    | none => []
    | some _ =>
      let sub := (b.stmts.map (stmtChildren fun c => innermostWalk buf fuel' c)).flatten
      if sub.isEmpty then [b] else sub

/-- Innermost visited level of each chain of `computeAccess b buf`, aligned
with the returned patterns. -/
def innermostVisited (b : Block) (buf : String) : List Block :=
  innermostWalk buf b.depth b

/-- The refinement of the matmul kernel for buffer `A`: address
`1 * k + 5 * m + 0 * n`. -/
def refA : Refinement :=
  ⟨"A", .read, ⟨0, [⟨"k", 1⟩, ⟨"m", 5⟩, ⟨"n", 0⟩]⟩⟩

/-- Concrete pre-tiling index assignment used as a witness: `k = 3`, `m = 1`,
`n = 0`, every other name 0. -/
def assignC : String → Int :=
  fun v => if v = "k" then 3 else if v = "m" then 1 else 0

/-- Outer half of the decomposition of `assignC` under the tile shape
`(2, 2, 2)` of the matmul kernel: the combined value divided by the tile size
on split variables, 0 elsewhere. -/
def assignO : String → Int :=
  fun v =>
    match findTile matmulKernel.idxs [2, 2, 2] v with
    | some T => assignC v / T
    | none => 0

/-- Inner half of the decomposition of `assignC` under the tile shape
`(2, 2, 2)` of the matmul kernel: the combined value modulo the tile size on
split variables, the combined value itself elsewhere. -/
def assignI : String → Int :=
  fun v =>
    match findTile matmulKernel.idxs [2, 2, 2] v with
    | some T => assignC v % T
    | none => assignC v

/-- Inner half of the identity decomposition of `assignC` under the tile shape
`(1, 1, 1)` of the matmul kernel: 0 on split variables, the combined value
elsewhere. -/
def assignIdI : String → Int :=
  fun v =>
    match findTile matmulKernel.idxs [1, 1, 1] v with
    | some _ => 0
    | none => assignC v

/-- The matmul kernel block after the identity tiling `(1, 1, 1)`. -/
def identityTiled : Block :=
  match applyTile matmulKernel [1, 1, 1] with
  | .ok b => b
  | .error _ => matmulKernel

end Stripe

namespace Vulkan

/-- A `spv.module` operation, abstracted to the outcome of the external
`spirv::serialize` call on it: `some words` when serialization succeeds with
the given 32-bit words, `none` when it fails.  Serialization itself is an
external collaborator (out of scope), so it is modelled as data. -/
structure SpvModule where
  serialized : Option (List Nat)
deriving DecidableEq, Repr

/-- An operation of the surrounding MLIR module, as seen by
`module.getOps<spirv::ModuleOp>()`: either a `spv.module` operation or any
other operation (skipped by that iteration). -/
inductive MlirOp where
  | spvModule (m : SpvModule)
  | other
deriving DecidableEq, Repr

/-- Failure modes of `createBinaryShader`: a diagnostic emitted via
`emitError`, or a bare `failure()` (propagating a failed serialization). -/
inductive VulkanError where
  | emitted (msg : String)
  | failure
deriving DecidableEq, Repr

/-- The diagnostic text of `createBinaryShader` for a duplicate module. -/
def oneSpvModuleMsg : String := "should only contain one \x27spv.module\x27 op"

/-- Loop body of `GpuLaunchFuncToVulkanCallsPass::createBinaryShader`: iterate
the `spv.module` operations with a `done` flag; a second one emits the
duplicate-module diagnostic, a failed `spirv::serialize` propagates `failure`,
a successful one appends its words to `binary`. -/
def createBinaryShaderGo (done : Bool) (binary : List Nat) :
    List MlirOp → Except VulkanError (List Nat)
  | [] => .ok binary
  | .other :: rest => createBinaryShaderGo done binary rest
  | .spvModule m :: rest =>
      if done then .error (.emitted oneSpvModuleMsg)
      else
        match m.serialized with
        | none => .error .failure
        | some words => createBinaryShaderGo true (binary ++ words) rest

/-- `GpuLaunchFuncToVulkanCallsPass::createBinaryShader`: serializes the single
`spv.module` operation of the module into the binary shader.  The resulting
byte vector is the `memcpy` image of the serialized words; it is modelled here
at 32-bit word granularity (the byte-level layout is platform-endian and
carries no further information). -/
def createBinaryShader (ops : List MlirOp) : Except VulkanError (List Nat) :=
  createBinaryShaderGo false [] ops

/-- Number of `spv.module` operations in a module. -/
def countSpv : List MlirOp → Nat
  | [] => 0
  | .spvModule _ :: rest => countSpv rest + 1
  | .other :: rest => countSpv rest

/-- First `spv.module` operation of a module, when present. -/
def firstSpv : List MlirOp → Option SpvModule
  | [] => none
  | .spvModule m :: _ => some m
  | .other :: rest => firstSpv rest

end Vulkan

open Stripe Vulkan

section WalkLemmas

/-- Membership in the flattened child results of a statement list is membership
in the result of some nested block. -/
lemma mem_stmtChildren_flatten {α : Type} {p : α} {f : Stripe.Block → List α}
    {ss : List Stripe.Stmt} :
    p ∈ (ss.map (stmtChildren f)).flatten ↔ ∃ c, Stripe.Stmt.nested c ∈ ss ∧ p ∈ f c := by
  constructor
  · intro h
    rcases List.mem_flatten.mp h with ⟨l, hl, hpl⟩
    rcases List.mem_map.mp hl with ⟨s, hs, rfl⟩
    cases s with
    | leaf => simp [stmtChildren] at hpl
    | nested c => exact ⟨c, hs, hpl⟩
  · rintro ⟨c, hc, hpc⟩
    exact List.mem_flatten.mpr ⟨f c, List.mem_map.mpr ⟨.nested c, hc, rfl⟩, hpc⟩

/-- A statement-list predicate check succeeds exactly when some nested block
satisfies the predicate. -/
lemma stmtCheck_any {f : Stripe.Block → Bool} {ss : List Stripe.Stmt} :
    (ss.map (stmtCheck f)).any id = true ↔
      ∃ c, Stripe.Stmt.nested c ∈ ss ∧ f c = true := by
  constructor
  · intro h
    rcases List.any_eq_true.mp h with ⟨x, hx, hpx⟩
    rcases List.mem_map.mp hx with ⟨s, hs, rfl⟩
    cases s with
    | leaf => simp [stmtCheck] at hpx
    | nested c => exact ⟨c, hs, hpx⟩
  · rintro ⟨c, hc, hfc⟩
    exact List.any_eq_true.mpr ⟨stmtCheck f (.nested c), List.mem_map.mpr ⟨.nested c, hc, rfl⟩, hfc⟩

/-- A non-empty pending-constraint harvest witnesses a ragged lineage record
among the given records. -/
lemma raggedCons_ne_nil : ∀ (splits : List SplitInfo) (pv lv j : Nat),
    raggedCons pv lv j splits ≠ [] →
      (splits.any fun s => !(s.origRange % s.tile == 0)) = true := by
  intro splits
  induction splits with
  | nil => intro pv lv j h; simp [raggedCons] at h
  | cons s rest ih =>
    intro pv lv j h
    rw [raggedCons] at h
    by_cases hs : (s.origRange % s.tile == 0) = true
    · simp only [hs, if_true, List.nil_append] at h
      simp only [List.any_cons, hs, Bool.not_true, Bool.false_or]
      exact ih pv lv (j + 1) h
    · simp only [List.any_cons, Bool.or_eq_true]
      left
      simp [Bool.not_eq_true] at hs
      simp [hs]

/-- Every pattern produced by the walk carries the exactness bit that was fixed
at the start of the walk. -/
lemma walkBlock_isExact (buf : String) :
    ∀ (fuel : Nat) (b : Stripe.Block) (off : Int) (acc : List AccessIndex)
      (cons : List PendConstraint) (exact : Bool) (prevStart : Nat) (atStart : Bool)
      (p : AccessPattern), p ∈ walkBlock buf fuel b off acc cons exact prevStart atStart →
      p.isExact = exact := by
  intro fuel
  induction fuel with
  | zero =>
    intro b off acc cons exact prev atStart p hp
    simp [walkBlock] at hp
  | succ fuel ih =>
    intro b off acc cons exact prev atStart p hp
    rw [walkBlock] at hp
    cases hfind : findRef b.refs buf with
    | none => rw [hfind] at hp; simp at hp
    | some r =>
      rw [hfind] at hp
      simp only at hp
      split at hp <;> split at hp <;>
        first
        | (simp only [List.mem_singleton] at hp; subst hp; rfl)
        | (rcases mem_stmtChildren_flatten.mp hp with ⟨c, hc, hpc⟩;
           exact ih c _ _ _ exact _ false p hpc)

/-- When a walked pattern carries constraints although none were pending, some
level the walk entered (strictly below its start when the walk begins there)
holds a ragged tiling lineage record. -/
lemma walkBlock_constraints (buf : String) :
    ∀ (fuel : Nat) (b : Stripe.Block) (off : Int) (acc : List AccessIndex)
      (cons : List PendConstraint) (exact : Bool) (prevStart : Nat) (atStart : Bool)
      (p : AccessPattern), p ∈ walkBlock buf fuel b off acc cons exact prevStart atStart →
      p.constraints ≠ [] → cons ≠ [] ∨ subtreeRagged fuel b atStart = true := by
  intro fuel
  induction fuel with
  | zero =>
    intro b off acc cons exact prev atStart p hp
    simp [walkBlock] at hp
  | succ fuel ih =>
    intro b off acc cons exact prev atStart p hp hne
    rw [walkBlock] at hp
    cases hfind : findRef b.refs buf with
    | none => rw [hfind] at hp; simp at hp
    | some r =>
      rw [hfind] at hp
      simp only at hp
      split at hp
      · -- the walk starts here: no new pending constraints
        split at hp
        · simp only [List.mem_singleton] at hp
          subst hp
          simp only [List.append_nil] at hne ⊢
          left
          intro hc0
          subst hc0
          simp at hne
        · rcases mem_stmtChildren_flatten.mp hp with ⟨c, hc, hpc⟩
          rcases ih c _ _ _ exact _ false p hpc hne with h1 | h2
          · left
            intro hc0
            subst hc0
            simp at h1
          · right
            rw [subtreeRagged]
            exact Bool.or_eq_true _ _ |>.mpr (Or.inr (stmtCheck_any.mpr ⟨c, hc, h2⟩))
      · -- a level entered during the descent: ragged records become pending
        rename_i hstart
        split at hp
        · simp only [List.mem_singleton] at hp
          subst hp
          simp only [ne_eq, List.map_eq_nil_iff, List.append_eq_nil] at hne
          by_cases hc0 : cons = []
          · right
            rw [subtreeRagged]
            refine Bool.or_eq_true _ _ |>.mpr (Or.inl ?_)
            have hnc : raggedCons prev acc.length 0 b.splits ≠ [] := by
              intro h0
              exact hne ⟨hc0, h0⟩
            simp only [Bool.and_eq_true, Bool.not_eq_true']
            exact ⟨by simp [eq_false_of_ne_true hstart], raggedCons_ne_nil _ _ _ _ hnc⟩
          · left; exact hc0
        · rcases mem_stmtChildren_flatten.mp hp with ⟨c, hc, hpc⟩
          rcases ih c _ _ _ exact _ false p hpc hne with h1 | h2
          · simp only [ne_eq, List.append_eq_nil, not_and_or] at h1
            rcases h1 with h1 | h1
            · left; exact h1
            · right
              rw [subtreeRagged]
              refine Bool.or_eq_true _ _ |>.mpr (Or.inl ?_)
              simp only [Bool.and_eq_true, Bool.not_eq_true']
              exact ⟨by simp [eq_false_of_ne_true hstart], raggedCons_ne_nil _ _ _ _ h1⟩
          · right
            rw [subtreeRagged]
            exact Bool.or_eq_true _ _ |>.mpr (Or.inr (stmtCheck_any.mpr ⟨c, hc, h2⟩))

end WalkLemmas

/-- The walk of a block with no refinement for the buffer returns no access
pattern at any fuel. -/
lemma walkBlock_of_findRef_none {buf : String} {b : Stripe.Block}
    (h : findRef b.refs buf = none) :
    ∀ (fuel : Nat) (off : Int) (acc : List AccessIndex) (cons : List PendConstraint)
      (exact : Bool) (prevStart : Nat) (atStart : Bool),
      walkBlock buf fuel b off acc cons exact prevStart atStart = [] := by
  intro fuel off acc cons exact prev atStart
  cases fuel with
  | zero => rfl
  | succ fuel => rw [walkBlock, h]

/-- Claim C4: for the 5x5 matrix-multiply kernel tiled with shape (2,2,2),
`computeAccess` on the tiled kernel block for buffer `A` returns exactly one
pattern with `isExterior = false`, `isExact = true`, `baseOffset = 0`, the six
index entries (k,2,3),(m,10,3),(n,0,3),(k,1,2),(m,5,2),(n,0,2) in
outer-then-inner order and the three constraint rows
(2,0,0,1,0,0) <= 5, (0,2,0,0,1,0) <= 5, (0,0,2,0,0,1) <= 5; on the inner
sub-block alone it returns exactly one pattern with `isExterior = false`,
`isExact = false`, `baseOffset = 0`, the three index entries
(k,1,2),(m,5,2),(n,0,2) and no constraints. -/
theorem matmul_access_scenario :
    computeAccess tiledKernel "A" = [patternTiledA] ∧
    computeAccess (innerOf tiledKernel) "A" = [patternInnerA] := by
  decide

/-- Counterexample to claim C2 as stated: the pattern computed for `A` on the
tiled kernel block has `isExact = true` although the tiling split folded into
it (the inner level's lineage, whose six entries and constraint rows the
pattern visibly contains) is ragged: the tile size 2 does not divide the
original range 5. -/
theorem isExact_divisibility_cex :
    computeAccess tiledKernel "A" = [patternTiledA] ∧ patternTiledA.isExact = true ∧
    ((innerOf tiledKernel).splits.all fun s => s.origRange % s.tile == 0) = false := by
  decide

/-- Claim C2, amended: in every pattern returned by `computeAccess`, `isExact`
is true iff every tiling split recorded on the queried block itself divides the
original untiled range evenly; ragged splits at levels strictly below the
queried block do not make `isExact` false (they are emitted as boundary
constraints instead). -/
theorem isExact_characterization (b : Stripe.Block) (buf : String) (p : AccessPattern)
    (hp : p ∈ computeAccess b buf) :
    p.isExact = true ↔ ∀ s ∈ b.splits, s.origRange % s.tile = 0 := by
  rw [computeAccess] at hp
  have hx := walkBlock_isExact buf b.depth b 0 [] []
    (b.splits.all fun s => s.origRange % s.tile == 0) 0 true p hp
  rw [hx]
  simp [List.all_eq_true]

/-- Witness for the amended claim C2 at a concrete input: the tiled kernel
block carries no lineage record of its own, and the pattern computed for `A`
there is exact. -/
theorem isExact_characterization_witness :
    patternTiledA.isExact = true ↔ ∀ s ∈ tiledKernel.splits, s.origRange % s.tile = 0 :=
  isExact_characterization tiledKernel "A" patternTiledA (by decide)

/-- Counterexample to claim C3 as stated: the pattern computed for `A` on the
tiled kernel block has `isExact = true` and nevertheless carries three
boundary constraints. -/
theorem constraints_with_isExact_true_cex :
    computeAccess tiledKernel "A" = [patternTiledA] ∧ patternTiledA.isExact = true ∧
    patternTiledA.constraints ≠ [] := by
  decide

/-- Claim C3, amended: the constraints of a pattern returned by
`computeAccess` arise only from ragged tiling splits at levels strictly below
the block passed in; the sequence can be non-empty while `isExact` is true,
and a ragged split at the start block itself (which makes `isExact` false)
contributes no constraint. -/
theorem constraints_only_from_strict_descendants (b : Stripe.Block) (buf : String)
    (p : AccessPattern) (hp : p ∈ computeAccess b buf) (hne : p.constraints ≠ []) :
    raggedBelow b = true := by
  rw [computeAccess] at hp
  rcases walkBlock_constraints buf b.depth b 0 [] []
      (b.splits.all fun s => s.origRange % s.tile == 0) 0 true p hp hne with h | h
  · exact absurd rfl h
  · rw [raggedBelow]
    exact h

/-- Witness for the amended claim C3 at a concrete input: the tiled kernel
walk produces a constrained pattern, and indeed its inner sub-block carries
ragged lineage records. -/
theorem constraints_only_from_strict_descendants_witness :
    raggedBelow tiledKernel = true :=
  constraints_only_from_strict_descendants tiledKernel "A" patternTiledA
    (by decide) (by decide)

/-- Claim C8: when no refinement for the buffer exists anywhere in the block's
subtree, `computeAccess` returns the empty sequence; the analyzer is total and
raises no error (it has no failure channel at all). -/
theorem computeAccess_empty_when_absent (b : Stripe.Block) (buf : String)
    (h : hasRefInSubtree b buf = false) : computeAccess b buf = [] := by
  have hnone : findRef b.refs buf = none := by
    cases b with
    | mk i s r ss =>
      rw [hasRefInSubtree, Stripe.Block.depth, refInSubtree] at h
      cases hf : findRef (Stripe.Block.mk i s r ss).refs buf with
      | none => rfl
      | some rr =>
        rw [Stripe.Block.refs] at hf
        simp [Stripe.Block.refs, hf] at h
  rw [computeAccess]
  exact walkBlock_of_findRef_none hnone _ _ _ _ _ _ _

/-- Witness for claim C8 at a concrete input: the matmul kernel never touches
a buffer named `Z`. -/
theorem computeAccess_empty_when_absent_witness :
    computeAccess matmulKernel "Z" = [] :=
  computeAccess_empty_when_absent matmulKernel "Z" (by decide)

/-- Claim C9: `applyTile` succeeds exactly when the tile shape has one entry
per index variable and every tile size is at least 1, and fails with
`ShapeMismatch` (returning no transformed block at all) otherwise. -/
theorem applyTile_shape_mismatch (b : Stripe.Block) (ts : List Nat) :
    ((∃ b2, applyTile b ts = .ok b2) ↔ ts.length = b.idxs.length ∧ ∀ t ∈ ts, 1 ≤ t) ∧
    (¬(ts.length = b.idxs.length ∧ ∀ t ∈ ts, 1 ≤ t) →
      applyTile b ts = .error TileError.ShapeMismatch) := by
  by_cases h : ts.length = b.idxs.length ∧ ∀ t ∈ ts, 1 ≤ t
  · refine ⟨⟨fun _ => h, fun _ => ?_⟩, fun hn => absurd h hn⟩
    rw [applyTile, if_pos h]
    exact ⟨_, rfl⟩
  · refine ⟨⟨fun he => ?_, fun hc => absurd hc h⟩, fun _ => by rw [applyTile, if_neg h]⟩
    rw [applyTile, if_neg h] at he
    rcases he with ⟨b2, hb⟩
    simp at hb

/-- Witness for claim C9 at a concrete input: a two-entry tile shape on the
three-variable matmul kernel is rejected with `ShapeMismatch`. -/
theorem applyTile_shape_mismatch_witness :
    applyTile matmulKernel [2, 2] = .error TileError.ShapeMismatch :=
  (applyTile_shape_mismatch matmulKernel [2, 2]).2 (by decide)

/-- A tile size returned by `findTile` is one of the tile shape's entries. -/
lemma findTile_mem : ∀ (idxs : List Stripe.IndexVariable) (ts : List Nat) (v : String)
    (T : Nat), findTile idxs ts v = some T → T ∈ ts := by
  intro idxs
  induction idxs with
  | nil => intro ts v T h; simp [findTile] at h
  | cons iv rest ih =>
    intro ts v T h
    cases ts with
    | nil => simp [findTile] at h
    | cons t tss =>
      rw [findTile] at h
      split at h
      · cases h
        exact List.mem_cons_self _ _
      · exact List.mem_cons_of_mem _ (ih tss v T h)

/-- Splitting an affine map under tiling preserves evaluation: the outer half
evaluated at the outer assignment plus the original terms evaluated at the
inner assignment equal the original map at the combined assignment, whenever
the assignments decompose combined values as `c = T * o + i` on split
variables and agree on the remaining (ancestor) variables. -/
lemma evalMap_split (idxs : List Stripe.IndexVariable) (ts : List Nat)
    (m : Stripe.AffineMap) (envC envO envI : String → Int)
    (hs : ∀ v T, findTile idxs ts v = some T → envC v = T * envO v + envI v)
    (ha : ∀ v, findTile idxs ts v = none → envI v = envC v) :
    evalMap m envC =
      evalMap ⟨0, m.terms.filterMap (splitOuterTerm idxs ts)⟩ envO + evalMap m envI := by
  rcases m with ⟨off, terms⟩
  simp only [evalMap]
  have hsum : ∀ tms : List Stripe.Term,
      (tms.map fun t => t.coeff * envC t.var).sum =
        ((tms.filterMap (splitOuterTerm idxs ts)).map fun t => t.coeff * envO t.var).sum +
          (tms.map fun t => t.coeff * envI t.var).sum := by
    intro tms
    induction tms with
    | nil => simp
    | cons t rest ih =>
      cases hT : findTile idxs ts t.var with
      | some T =>
        have hsp : splitOuterTerm idxs ts t = some ⟨t.var, t.coeff * (T : Int)⟩ := by
          simp [splitOuterTerm, hT]
        rw [List.filterMap_cons_some hsp]
        simp only [List.map_cons, List.sum_cons]
        rw [hs t.var T hT, ih]
        ring
      | none =>
        have hsp : splitOuterTerm idxs ts t = none := by
          simp [splitOuterTerm, hT]
        rw [List.filterMap_cons_none hsp]
        simp only [List.map_cons, List.sum_cons]
        rw [ha t.var hT, ih]
        ring
  rw [hsum terms]
  ring

/-- Claim C1: tiling preserves addressing.  For every block, every compatible
tile shape, and every refinement declared on the block, evaluating the original
affine map at a combined in-range assignment equals evaluating the rewritten
affine map (outer half on the outer block plus the refinement re-declared on
the inner block) at the decomposition `combined = T * outer + inner` with
`0 <= inner < T`. -/
theorem tiling_preserves_addressing
    (b : Stripe.Block) (ts : List Nat) (b2 : Stripe.Block)
    (h : applyTile b ts = .ok b2) (r : Stripe.Refinement) (hr : r ∈ b.refs)
    (envC envO envI : String → Int)
    (hrange : ∀ iv ∈ b.idxs, 0 ≤ envC iv.name ∧ envC iv.name < iv.range)
    (hdec : ∀ v T, findTile b.idxs ts v = some T →
      envC v = T * envO v + envI v ∧ 0 ≤ envI v ∧ envI v < T)
    (hanc : ∀ v, findTile b.idxs ts v = none → envI v = envC v) :
    outerRefRw b.idxs ts r ∈ b2.refs ∧ r ∈ (innerOf b2).refs ∧
    evalMap r.map envC =
      evalMap (outerRefRw b.idxs ts r).map envO + evalMap r.map envI := by
  rw [applyTile] at h
  split at h
  · injection h with h2
    subst h2
    refine ⟨List.mem_map.mpr ⟨r, hr, rfl⟩, hr, ?_⟩
    exact evalMap_split b.idxs ts r.map envC envO envI
      (fun v T hT => (hdec v T hT).1) hanc
  · exact absurd h (by simp)

/-- Witness for claim C1 at a concrete input: the matmul kernel with tile
shape `(2, 2, 2)`, its refinement for `A`, and the combined assignment
`k = 3, m = 1, n = 0` decomposed as quotient and remainder by 2. -/
theorem tiling_preserves_addressing_witness :
    evalMap refA.map assignC =
      evalMap (outerRefRw matmulKernel.idxs [2, 2, 2] refA).map assignO +
        evalMap refA.map assignI :=
  (tiling_preserves_addressing matmulKernel [2, 2, 2] tiledKernel rfl refA (by decide)
    assignC assignO assignI (by decide)
    (by
      intro v T hT
      have hT2 : T = 2 := by
        have hm := findTile_mem _ _ _ _ hT
        simpa using hm
      subst hT2
      simp only [assignO, assignI, hT]
      exact ⟨(Int.ediv_add_emod _ _).symm, Int.emod_nonneg _ (by decide),
        Int.emod_lt_of_pos _ (by decide)⟩)
    (by
      intro v hv
      simp [assignI, hv])).2.2

/-- Over a tile shape of all 1's, every tile size `findTile` returns is 1. -/
lemma findTile_replicate : ∀ (idxs : List Stripe.IndexVariable) (v : String) (T : Nat),
    findTile idxs (List.replicate idxs.length 1) v = some T → T = 1 := by
  intro idxs
  induction idxs with
  | nil => intro v T h; simp [findTile] at h
  | cons iv rest ih =>
    intro v T h
    rw [List.length_cons, List.replicate_succ, findTile] at h
    split at h
    · exact (Option.some.inj h).symm
    · exact ih v T h

/-- Claim C7: applying a tile shape of all 1's is a no-op on observable
addressing.  For every block and every refinement on it, the rewritten affine
map (outer half at the unchanged assignment plus the re-declared refinement at
the inner assignment, which is 0 on every split variable since the inner range
is 1) evaluates to the same address as the original map at every in-range
assignment. -/
theorem identity_tiling_noop
    (b : Stripe.Block) (b2 : Stripe.Block)
    (h : applyTile b (List.replicate b.idxs.length 1) = .ok b2)
    (r : Stripe.Refinement) (hr : r ∈ b.refs)
    (envC envI : String → Int)
    (hrange : ∀ iv ∈ b.idxs, 0 ≤ envC iv.name ∧ envC iv.name < iv.range)
    (hin : ∀ v T, findTile b.idxs (List.replicate b.idxs.length 1) v = some T → envI v = 0)
    (hanc : ∀ v, findTile b.idxs (List.replicate b.idxs.length 1) v = none → envI v = envC v) :
    outerRefRw b.idxs (List.replicate b.idxs.length 1) r ∈ b2.refs ∧
    r ∈ (innerOf b2).refs ∧
    evalMap r.map envC =
      evalMap (outerRefRw b.idxs (List.replicate b.idxs.length 1) r).map envC +
        evalMap r.map envI := by
  rw [applyTile] at h
  split at h
  · injection h with h2
    subst h2
    refine ⟨List.mem_map.mpr ⟨r, hr, rfl⟩, hr, ?_⟩
    refine evalMap_split b.idxs (List.replicate b.idxs.length 1) r.map envC envC envI
      (fun v T hT => ?_) hanc
    have h1 : T = 1 := findTile_replicate b.idxs v T hT
    subst h1
    rw [hin v 1 hT]
    ring
  · exact absurd h (by simp)

/-- Witness for claim C7 at a concrete input: the matmul kernel under the
identity tile shape, its refinement for `A`, and the assignment
`k = 3, m = 1, n = 0`. -/
theorem identity_tiling_noop_witness :
    evalMap refA.map assignC =
      evalMap (outerRefRw matmulKernel.idxs
        (List.replicate matmulKernel.idxs.length 1) refA).map assignC +
        evalMap refA.map assignIdI :=
  (identity_tiling_noop matmulKernel identityTiled rfl refA (by decide)
    assignC assignIdI (by decide)
    (by
      intro v T hT
      have hT2 : findTile matmulKernel.idxs [1, 1, 1] v = some T := hT
      simp [assignIdI, hT2])
    (by
      intro v hv
      have hv2 : findTile matmulKernel.idxs [1, 1, 1] v = none := hv
      simp [assignIdI, hv2])).2.2

/-- Pointwise description of `zipWith` through optional indexing. -/
lemma getElem?_zipWith_of_some {α β γ : Type} (f : α → β → γ) :
    ∀ (l1 : List α) (l2 : List β) (j : Nat) (a : α) (b : β),
      l1[j]? = some a → l2[j]? = some b → (List.zipWith f l1 l2)[j]? = some (f a b) := by
  intro l1
  induction l1 with
  | nil => intro l2 j a b h1; simp at h1
  | cons x xs ih =>
    intro l2 j a b h1 h2
    cases l2 with
    | nil => simp at h2
    | cons y ys =>
      cases j with
      | zero =>
        simp only [List.getElem?_cons_zero, Option.some.injEq] at h1 h2
        subst h1
        subst h2
        simp [List.zipWith]
      | succ j =>
        simp only [List.getElem?_cons_succ] at h1 h2
        simpa [List.zipWith] using ih ys j a b h1 h2

/-- Claim C5: for every index variable of the tiled block with range `R`,
baseStride `S` and tile size `T`, `applyTile` produces an outer variable with
range `ceil(R / T)` and baseStride `S * T` and an inner variable with range `T`
and baseStride `S` (recording the lineage `(T, R)` on the inner block), and
rewrites every term `coeff * v` of every refinement declared on the block into
`(coeff * T) * v_outer` on the outer block while re-declaring the refinement
with the original coefficient `coeff * v_inner` on the inner block. -/
theorem applyTile_splits_variables
    (b : Stripe.Block) (ts : List Nat) (b2 : Stripe.Block)
    (h : applyTile b ts = .ok b2) :
    (∀ (j : Nat) (iv : Stripe.IndexVariable) (T : Nat),
      b.idxs[j]? = some iv → ts[j]? = some T →
        b2.idxs[j]? = some ⟨iv.name, (iv.range + T - 1) / T, iv.baseStride * T⟩ ∧
        (innerOf b2).idxs[j]? = some ⟨iv.name, T, iv.baseStride⟩ ∧
        (innerOf b2).splits[j]? = some ⟨T, iv.range⟩) ∧
    (∀ r ∈ b.refs, outerRefRw b.idxs ts r ∈ b2.refs ∧ r ∈ (innerOf b2).refs ∧
      ∀ tm ∈ r.map.terms, ∀ T, findTile b.idxs ts tm.var = some T →
        (⟨tm.var, tm.coeff * T⟩ : Stripe.Term) ∈ (outerRefRw b.idxs ts r).map.terms) := by
  rw [applyTile] at h
  split at h
  · injection h with h2
    subst h2
    constructor
    · intro j iv T h1 h2
      exact ⟨getElem?_zipWith_of_some _ b.idxs ts j iv T h1 h2,
        getElem?_zipWith_of_some _ b.idxs ts j iv T h1 h2,
        getElem?_zipWith_of_some _ b.idxs ts j iv T h1 h2⟩
    · intro r hr
      refine ⟨List.mem_map.mpr ⟨r, hr, rfl⟩, hr, ?_⟩
      intro tm htm T hT
      refine List.mem_filterMap.mpr ⟨tm, htm, ?_⟩
      simp [splitOuterTerm, hT]
  · exact absurd h (by simp)

/-- Witness for claim C5 at a concrete input: the first index variable of the
matmul kernel (`k`, range 5, baseStride 1) under tile size 2 becomes the outer
variable (`k`, 3, 2) and the inner variable (`k`, 2, 1) with lineage (2, 5),
and the term `1 * k` of the refinement for `A` becomes `2 * k` on the outer
block. -/
theorem applyTile_splits_variables_witness :
    tiledKernel.idxs[0]? = some ⟨"k", 3, 2⟩ ∧
    (innerOf tiledKernel).idxs[0]? = some ⟨"k", 2, 1⟩ ∧
    (innerOf tiledKernel).splits[0]? = some ⟨2, 5⟩ ∧
    (⟨"k", 2⟩ : Stripe.Term) ∈ (outerRefRw matmulKernel.idxs [2, 2, 2] refA).map.terms := by
  have h := applyTile_splits_variables matmulKernel [2, 2, 2] tiledKernel rfl
  have h1 := h.1 0 ⟨"k", 5, 1⟩ 2 (by decide) (by decide)
  have h2 := (h.2 refA (by decide)).2.2 ⟨"k", 1⟩ (by decide) 2 (by decide)
  exact ⟨h1.1, h1.2.1, h1.2.2, h2⟩

/-- Pointwise relatedness of the flattened child results of two structurally
identical walks over the same statement list. -/
lemma forall₂_flatten_stmts {R : AccessPattern → Stripe.Block → Prop}
    {fW : Stripe.Block → List AccessPattern} {fI : Stripe.Block → List Stripe.Block}
    (hf : ∀ c, List.Forall₂ R (fW c) (fI c)) :
    ∀ ss : List Stripe.Stmt,
      List.Forall₂ R ((ss.map (stmtChildren fW)).flatten)
        ((ss.map (stmtChildren fI)).flatten) := by
  intro ss
  induction ss with
  | nil => exact List.Forall₂.nil
  | cons s rest ih =>
    cases s with
    | leaf => simpa [stmtChildren] using ih
    | nested c =>
      simp only [List.map_cons, List.flatten_cons, stmtChildren]
      exact List.rel_append (hf c) ih

/-- Lifting pointwise relatedness through the walk's emission step: when the
deeper levels contribute nothing, both sides emit their own single result. -/
lemma forall₂_ite_emit {R : AccessPattern → Stripe.Block → Prop}
    (subW : List AccessPattern) (subI : List Stripe.Block)
    (hsub : List.Forall₂ R subW subI)
    (p : AccessPattern) (d : Stripe.Block) (hpd : R p d) :
    List.Forall₂ R (if subW.isEmpty then [p] else subW)
      (if subI.isEmpty then [d] else subI) := by
  by_cases hW : subW = []
  · subst hW
    have hI : subI = [] := by
      have hh := hsub.length_eq
      simpa [eq_comm, List.length_eq_zero] using hh
    subst hI
    simp only [List.isEmpty_nil, if_true]
    exact List.Forall₂.cons hpd List.Forall₂.nil
  · have hI : subI ≠ [] := by
      intro h0
      subst h0
      exact hW (by simpa [List.length_eq_zero] using hsub.length_eq)
    rw [if_neg (by simpa [List.isEmpty_iff]), if_neg (by simpa [List.isEmpty_iff])]
    exact hsub

/-- Each pattern the walk emits is matched, in order, by the innermost level
the walk visited for that chain; the pattern's `isExterior` bit is true exactly
when every local coefficient of that level's refinement is zero. -/
lemma walkBlock_innermost (buf : String) :
    ∀ (fuel : Nat) (b : Stripe.Block) (off : Int) (acc : List AccessIndex)
      (cons : List PendConstraint) (exact : Bool) (prevStart : Nat) (atStart : Bool),
      List.Forall₂ (fun (p : AccessPattern) (d : Stripe.Block) =>
          ∃ rr, findRef d.refs buf = some rr ∧
            (p.isExterior = true ↔ ∀ iv ∈ d.idxs, coeffOf rr.map iv.name = 0))
        (walkBlock buf fuel b off acc cons exact prevStart atStart)
        (innermostWalk buf fuel b) := by
  intro fuel
  induction fuel with
  | zero =>
    intro b off acc cons exact prev atStart
    rw [walkBlock, innermostWalk]
    exact List.Forall₂.nil
  | succ fuel ih =>
    intro b off acc cons exact prev atStart
    rw [walkBlock, innermostWalk]
    cases hfind : findRef b.refs buf with
    | none => simp only [hfind]; exact List.Forall₂.nil
    | some r =>
      simp only [hfind]
      refine forall₂_ite_emit _ _
        (forall₂_flatten_stmts (fun c => ih c _ _ _ _ _ _) b.stmts) _ _ ?_
      refine ⟨r, hfind, ?_⟩
      simp only [levelEntries, List.all_eq_true, List.mem_map, beq_iff_eq]
      constructor
      · intro h iv hiv
        exact h _ ⟨iv, hiv, rfl⟩
      · intro h e he
        rcases he with ⟨iv, hiv, rfl⟩
        exact h iv hiv

/-- Claim C6: in every pattern returned by `computeAccess`, `isExterior` is
true iff every index variable local to the innermost visited level of that
chain has coefficient zero in that level's refinement for the queried buffer;
the patterns are matched, in order, with their innermost visited levels. -/
theorem isExterior_characterization (b : Stripe.Block) (buf : String) :
    List.Forall₂ (fun (p : AccessPattern) (d : Stripe.Block) =>
        ∃ rr, findRef d.refs buf = some rr ∧
          (p.isExterior = true ↔ ∀ iv ∈ d.idxs, coeffOf rr.map iv.name = 0))
      (computeAccess b buf) (innermostVisited b buf) := by
  rw [computeAccess, innermostVisited]
  exact walkBlock_innermost buf b.depth b 0 [] []
    (b.splits.all fun s => s.origRange % s.tile == 0) 0 true

/-- The serialization loop leaves its accumulator untouched when no
`spv.module` operation remains. -/
lemma go_no_spv : ∀ (ops : List MlirOp) (d : Bool) (bin : List Nat),
    countSpv ops = 0 → createBinaryShaderGo d bin ops = .ok bin := by
  intro ops
  induction ops with
  | nil => intro d bin h; rfl
  | cons op rest ih =>
    intro d bin h
    cases op with
    | other =>
      rw [createBinaryShaderGo]
      exact ih d bin (by simpa [countSpv] using h)
    | spvModule m =>
      rw [countSpv] at h
      omega

/-- Once a `spv.module` has been consumed, any further `spv.module` operation
makes the loop emit the duplicate-module diagnostic. -/
lemma go_done_spv : ∀ (ops : List MlirOp) (bin : List Nat), 1 ≤ countSpv ops →
    createBinaryShaderGo true bin ops = .error (.emitted oneSpvModuleMsg) := by
  intro ops
  induction ops with
  | nil => intro bin h; simp [countSpv] at h
  | cons op rest ih =>
    intro bin h
    cases op with
    | other =>
      rw [createBinaryShaderGo]
      exact ih bin (by simpa [countSpv] using h)
    | spvModule m => rfl

/-- With no `spv.module` operation at all the loop returns its accumulator. -/
lemma go_first_none : ∀ (ops : List MlirOp) (bin : List Nat), firstSpv ops = none →
    createBinaryShaderGo false bin ops = .ok bin := by
  intro ops
  induction ops with
  | nil => intro bin h; rfl
  | cons op rest ih =>
    intro bin h
    cases op with
    | other =>
      rw [createBinaryShaderGo]
      exact ih bin (by simpa [firstSpv] using h)
    | spvModule m => simp [firstSpv] at h

/-- With exactly one `spv.module` operation whose serialization succeeds, the
loop appends its words to the accumulator and succeeds. -/
lemma go_first_some_ok : ∀ (ops : List MlirOp) (bin : List Nat) (m : SpvModule)
    (w : List Nat), countSpv ops ≤ 1 → firstSpv ops = some m → m.serialized = some w →
    createBinaryShaderGo false bin ops = .ok (bin ++ w) := by
  intro ops
  induction ops with
  | nil => intro bin m w h1 h2; simp [firstSpv] at h2
  | cons op rest ih =>
    intro bin m w h1 h2 h3
    cases op with
    | other =>
      rw [createBinaryShaderGo]
      exact ih bin m w (by simpa [countSpv] using h1) (by simpa [firstSpv] using h2) h3
    | spvModule m0 =>
      rw [firstSpv] at h2
      injection h2 with h2
      subst h2
      rw [createBinaryShaderGo, if_neg (by simp), h3]
      rw [countSpv] at h1
      exact go_no_spv rest true (bin ++ w) (by omega)

/-- When the first `spv.module` operation fails to serialize, the loop
propagates the failure. -/
lemma go_first_some_fail : ∀ (ops : List MlirOp) (bin : List Nat) (m : SpvModule),
    firstSpv ops = some m → m.serialized = none →
    createBinaryShaderGo false bin ops = .error .failure := by
  intro ops
  induction ops with
  | nil => intro bin m h1; simp [firstSpv] at h1
  | cons op rest ih =>
    intro bin m h1 h2
    cases op with
    | other =>
      rw [createBinaryShaderGo]
      exact ih bin m (by simpa [firstSpv] using h1) h2
    | spvModule m0 =>
      rw [firstSpv] at h1
      injection h1 with h1
      subst h1
      rw [createBinaryShaderGo, if_neg (by simp), h2]

/-- With two or more `spv.module` operations, provided the first serializes
successfully, the loop emits the duplicate-module diagnostic on the second. -/
lemma go_two_spv : ∀ (ops : List MlirOp) (bin : List Nat) (m : SpvModule)
    (w : List Nat), 2 ≤ countSpv ops → firstSpv ops = some m → m.serialized = some w →
    createBinaryShaderGo false bin ops = .error (.emitted oneSpvModuleMsg) := by
  intro ops
  induction ops with
  | nil => intro bin m w h1 h2; simp [firstSpv] at h2
  | cons op rest ih =>
    intro bin m w h1 h2 h3
    cases op with
    | other =>
      rw [createBinaryShaderGo]
      exact ih bin m w (by simpa [countSpv] using h1) (by simpa [firstSpv] using h2) h3
    | spvModule m0 =>
      rw [firstSpv] at h2
      injection h2 with h2
      subst h2
      rw [createBinaryShaderGo, if_neg (by simp), h3]
      rw [countSpv] at h1
      exact go_done_spv rest (bin ++ w) (by omega)

/-- Counterexample to claim C10 as stated: a module whose single `spv.module`
operation fails to serialize makes `createBinaryShader` fail with the
propagated serialization failure, although the module contains at most one
`spv.module` operation, so the claim's success branch is violated. -/
theorem createBinaryShader_cex :
    countSpv [MlirOp.spvModule ⟨none⟩] = 1 ∧
    createBinaryShader [MlirOp.spvModule ⟨none⟩] = .error VulkanError.failure :=
  ⟨rfl, rfl⟩

/-- Claim C10, amended: `createBinaryShader` emits the diagnostic
"should only contain one spv.module op" whenever a second `spv.module`
operation is encountered after the first one serialized successfully; with at
most one `spv.module` operation it succeeds exactly when the operation (if
present) serializes, returning the serialized words (empty when absent), and
propagates a bare failure when serialization fails. -/
theorem createBinaryShader_characterization (ops : List MlirOp) :
    (firstSpv ops = none → createBinaryShader ops = .ok []) ∧
    (∀ m w, countSpv ops ≤ 1 → firstSpv ops = some m → m.serialized = some w →
      createBinaryShader ops = .ok w) ∧
    (∀ m, firstSpv ops = some m → m.serialized = none →
      createBinaryShader ops = .error VulkanError.failure) ∧
    (∀ m w, 2 ≤ countSpv ops → firstSpv ops = some m → m.serialized = some w →
      createBinaryShader ops = .error (VulkanError.emitted oneSpvModuleMsg)) := by
  refine ⟨fun h => go_first_none ops [] h, fun m w h1 h2 h3 => ?_,
    fun m h1 h2 => go_first_some_fail ops [] m h1 h2,
    fun m w h1 h2 h3 => go_two_spv ops [] m w h1 h2 h3⟩
  simpa using go_first_some_ok ops [] m w h1 h2 h3

/-- Witness for the amended claim C10 at concrete inputs: one successfully
serializing `spv.module` succeeds with its words, and two of them trigger the
duplicate-module diagnostic. -/
theorem createBinaryShader_characterization_witness :
    createBinaryShader [MlirOp.spvModule ⟨some [7, 9]⟩, MlirOp.other] = .ok [7, 9] ∧
    createBinaryShader [MlirOp.spvModule ⟨some [7]⟩, MlirOp.spvModule ⟨some [8]⟩] =
      .error (VulkanError.emitted oneSpvModuleMsg) :=
  ⟨(createBinaryShader_characterization [MlirOp.spvModule ⟨some [7, 9]⟩, MlirOp.other]).2.1
      ⟨some [7, 9]⟩ [7, 9] (by decide) rfl rfl,
    (createBinaryShader_characterization
        [MlirOp.spvModule ⟨some [7]⟩, MlirOp.spvModule ⟨some [8]⟩]).2.2.2
      ⟨some [7]⟩ [7] (by decide) rfl rfl⟩
